import Mathlib

/-!
Shallow embedding of the contextual-bandit training notebook
(`tfrl_part1.1.ipynb`): a three-bandit, four-armed environment with fixed
reward thresholds, a one-layer sigmoid policy agent trained by a single
gradient-descent step per episode, and the surrounding training loop with
its diagnostic and terminal reports.

Machine floats are modelled as real numbers; the random draws of the
program (the uniformly drawn state, the uniform exploration draw, the
uniform random action, and the standard-normal reward draw) are modelled
as explicit inputs, so every theorem quantifies over every possible draw.
-/

namespace TFRL

noncomputable section

/-- Number of bandits: `self.bandits.shape[0]` of the source, which is 3. -/
def numBandits : ℕ := 3

/-- Number of actions (arms): `self.bandits.shape[1]` of the source, which is 4. -/
def numActions : ℕ := 4

/-- The fixed threshold table of the source:
`np.array([[0.2,0,-0.0,-5], [0.1,-5,1,0.25], [-5,5,5,5]])`. -/
def banditsTable : Fin 3 → Fin 4 → ℝ := fun s a =>
  if s = 0 then
    (if a = 0 then 0.2 else if a = 1 then 0 else if a = 2 then -0.0 else -5)
  else if s = 1 then
    (if a = 0 then 0.1 else if a = 1 then -5 else if a = 2 then 1 else 0.25)
  else
    (if a = 0 then -5 else 5)

/-- The environment object `contextual_bandit`: its only mutable field is
`self.state`, the transient current-state field. -/
structure Env where
  state : Fin 3

/-- `getBandit` of the source: stores a freshly drawn random state in
`self.state` and returns it.  The uniform draw `np.random.randint(0, 3)` is
the explicit input. -/
def getBandit (draw : Fin 3) : Env × Fin 3 :=
  ({ state := draw }, draw)

/-- `pullArm` of the source: takes only the action; looks up the threshold at
`(self.state, action)`, draws `result` from a standard normal distribution
(the explicit input `draw`), and returns `1` if `result > bandit` else `-1`. -/
def pullArm (env : Env) (action : Fin 4) (draw : ℝ) : ℤ :=
  if draw > banditsTable env.state action then 1 else -1

/-- Modelled from the spec's words for the refinement claim: `pull(state,
action)` receives the state explicitly from the caller, compares a
standard-normal draw against the fixed threshold at `(state, action)`, and
returns `+1` if the sample exceeds the threshold, else `-1`. -/
def pullSpec (state : Fin 3) (action : Fin 4) (draw : ℝ) : ℤ :=
  if draw > banditsTable state action then 1 else -1

/-- The sigmoid activation `tf.nn.sigmoid`: `sigmoid x = 1 / (1 + e^(-x))`. -/
def sigmoid (x : ℝ) : ℝ := (1 + Real.exp (-x))⁻¹

/-- `slim.one_hot_encoding(state_in, s_size)`: the one-hot row vector of the
input state. -/
def oneHot (s : Fin 3) : Fin 3 → ℝ := fun i => if i = s then 1 else 0

/-- Pre-activation of the fully connected layer (no bias): the matrix product
of the one-hot encoded state with the weight matrix, at output column `j`. -/
def preact (W : Fin 3 → Fin 4 → ℝ) (s : Fin 3) (j : Fin 4) : ℝ :=
  ∑ i : Fin 3, oneHot s i * W i j

/-- `self.output` of the agent, reshaped to one dimension: the sigmoid
activation of the fully connected layer. -/
def outputRow (W : Fin 3 → Fin 4 → ℝ) (s : Fin 3) (j : Fin 4) : ℝ :=
  sigmoid (preact W s j)

/-- One step of the argmax scan: replace the current best index `best` with
the candidate `i` exactly when `f best < f i`. -/
def amaxStep (f : Fin 4 → ℝ) (best i : Fin 4) : Fin 4 :=
  if f best < f i then i else best

/-- First-occurrence argmax scan over a four-element row, as computed by
`tf.argmax` / `np.argmax`: the running best index is replaced only on a
strictly greater value, so ties keep the lowest index. -/
def argmaxIdx (f : Fin 4 → ℝ) : Fin 4 :=
  amaxStep f (amaxStep f (amaxStep f 0 1) 2) 3

/-- One step of the argmin scan: replace the current best index `best` with
the candidate `i` exactly when `f i < f best`. -/
def aminStep (f : Fin 4 → ℝ) (best i : Fin 4) : Fin 4 :=
  if f i < f best then i else best

/-- First-occurrence argmin scan over a four-element row, as computed by
`np.argmin`: the running best index is replaced only on a strictly smaller
value. -/
def argminIdx (f : Fin 4 → ℝ) : Fin 4 :=
  aminStep f (aminStep f (aminStep f 0 1) 2) 3

/-- `self.chosen_action` of the agent: `tf.argmax(self.output, 0)`. -/
def chosenAction (W : Fin 3 → Fin 4 → ℝ) (s : Fin 3) : Fin 4 :=
  argmaxIdx (fun j => outputRow W s j)

/-- `self.responsible_weight`: `tf.slice(self.output, self.action_holder, [1])`,
the entry of the activated output at the chosen action. -/
def responsibleWeight (W : Fin 3 → Fin 4 → ℝ) (s : Fin 3) (a : Fin 4) : ℝ :=
  outputRow W s a

/-- `self.loss`: `-(tf.log(self.responsible_weight) * self.reward_holder)`. -/
def loss (W : Fin 3 → Fin 4 → ℝ) (s : Fin 3) (a : Fin 4) (r : ℝ) : ℝ :=
  -(Real.log (responsibleWeight W s a) * r)

/-- Replace the single entry `(i, j)` of the weight matrix by `w`. -/
def setEntry (W : Fin 3 → Fin 4 → ℝ) (i : Fin 3) (j : Fin 4) (w : ℝ) :
    Fin 3 → Fin 4 → ℝ :=
  fun i' j' => if i' = i ∧ j' = j then w else W i' j'

/-- `self.update`: one step of `tf.train.GradientDescentOptimizer(lr)` on the
loss.  Each weight entry moves against the partial derivative of the loss
with respect to that entry, scaled by the learning rate. -/
def updateStep (lr : ℝ) (W : Fin 3 → Fin 4 → ℝ) (s : Fin 3) (a : Fin 4)
    (r : ℝ) : Fin 3 → Fin 4 → ℝ :=
  fun i j => W i j - lr * deriv (fun w => loss (setEntry W i j w) s a r) (W i j)

/-- The learning rate of the training configuration: `lr=0.001`. -/
def lrConst : ℝ := 0.001

/-- The exploration probability of the training configuration: `eps = 0.1`. -/
def epsConst : ℝ := 0.1

/-- The episode count of the training configuration: `total_episodes = 10000`. -/
def totalEpisodes : ℕ := 10000

/-- The random draws one episode of the training loop consumes: the uniform
state draw of `getBandit`, the uniform exploration draw
`np.random.rand(1)`, the uniform random action `np.random.randint(4)`, and
the standard-normal reward draw of `pullArm`. -/
structure Rand where
  sDraw : Fin 3
  exploreDraw : ℝ
  aDraw : Fin 4
  rewardDraw : ℝ

/-- Action selection of the training loop: if the exploration draw is below
`eps`, the uniformly random action; otherwise the agent's greedy action
`chosen_action` at the sampled state. -/
def chooseAction (W : Fin 3 → Fin 4 → ℝ) (r : Rand) : Fin 4 :=
  if r.exploreDraw < epsConst then r.aDraw else chosenAction W r.sDraw

/-- Mutable state of the training loop: the agent's weight matrix and the
score table `total_reward`. -/
structure TrainState where
  W : Fin 3 → Fin 4 → ℝ
  T : Fin 3 → Fin 4 → ℝ

/-- Initial training state: weights all ones (`tf.ones_initializer`), score
table all zeros (`np.zeros`). -/
def initState : TrainState :=
  { W := fun _ _ => 1, T := fun _ _ => 0 }

/-- One episode of the training loop: sample a state via `getBandit`, choose
an action (random with probability `eps`, else greedy), pull the arm with
the environment's stored state, run one gradient-descent step on the
weights, and tally the reward into the score table at `(s, action)`. -/
def step (st : TrainState) (r : Rand) : TrainState :=
  let s := (getBandit r.sDraw).2
  let env := (getBandit r.sDraw).1
  let a := chooseAction st.W r
  let rew := pullArm env a r.rewardDraw
  { W := updateStep lrConst st.W s a (rew : ℝ)
    T := fun i j => if i = s ∧ j = a then st.T i j + (rew : ℝ) else st.T i j }

/-- The training loop without its diagnostic output: `total_episodes`
episodes, run strictly in order, each consuming the draws of its episode
index. -/
def trainLoop (rand : ℕ → Rand) : TrainState :=
  (List.range totalEpisodes).foldl (fun st i => step st (rand i)) initState

/-- Row means of the score table, as printed by
`np.mean(total_reward, axis=1)`: the row sum divided by the number of
actions, 4. -/
def rowMeans (T : Fin 3 → Fin 4 → ℝ) : Fin 3 → ℝ :=
  fun b => (∑ j : Fin 4, T b j) / 4

/-- The diagnostic lines episode `i` writes to standard output: one line with
the row means of the score table when `i % 500 == 0`, none otherwise. -/
def episodeReport (i : ℕ) (T : Fin 3 → Fin 4 → ℝ) : List (Fin 3 → ℝ) :=
  if i % 500 = 0 then [rowMeans T] else []

/-- The training loop together with its diagnostic output: each episode first
steps the state, then (the tally precedes the print in the source) appends
its report of the updated score table. -/
def trainLoopLog (rand : ℕ → Rand) : TrainState × List (Fin 3 → ℝ) :=
  (List.range totalEpisodes).foldl
    (fun p i =>
      let st := step p.1 (rand i)
      (st, p.2 ++ episodeReport i st.T))
    (initState, [])

/-- One line of the final summary for bandit row `a`: the printed action
number `np.argmax(ww[a]) + 1`, the printed bandit number `a + 1`, and the
verdict `np.argmax(ww[a]) == np.argmin(cBandit.bandits[a])`. -/
def finalSummary (W : Fin 3 → Fin 4 → ℝ) (a : Fin 3) : ℕ × ℕ × Bool :=
  ((argmaxIdx (W a)).val + 1, a.val + 1,
    decide (argmaxIdx (W a) = argminIdx (banditsTable a)))

end

theorem fin4_cases (j : Fin 4) : j = 0 ∨ j = 1 ∨ j = 2 ∨ j = 3 := by
  revert j
  decide

theorem one_add_exp_pos (x : ℝ) : 0 < 1 + Real.exp (-x) := by positivity

theorem sigmoid_pos (x : ℝ) : 0 < sigmoid x := by
  unfold sigmoid
  positivity

theorem hasDerivAt_sigmoid (x : ℝ) :
    HasDerivAt sigmoid (Real.exp (-x) / (1 + Real.exp (-x)) ^ 2) x := by
  have hneg : HasDerivAt (fun y : ℝ => -y) (-1) x := (hasDerivAt_id x).neg
  have hexp : HasDerivAt (fun y : ℝ => Real.exp (-y)) (Real.exp (-x) * -1) x :=
    (Real.hasDerivAt_exp (-x)).comp x hneg
  have hden : HasDerivAt (fun y : ℝ => 1 + Real.exp (-y)) (Real.exp (-x) * -1) x :=
    hexp.const_add 1
  have hne : (1 + Real.exp (-x)) ≠ 0 := ne_of_gt (one_add_exp_pos x)
  have hinv := hden.inv hne
  have hgoal : sigmoid = fun y : ℝ => (1 + Real.exp (-y))⁻¹ := rfl
  rw [hgoal]
  simpa [mul_neg_one, neg_neg] using hinv

theorem deriv_sigmoid (x : ℝ) :
    deriv sigmoid x = Real.exp (-x) / (1 + Real.exp (-x)) ^ 2 :=
  (hasDerivAt_sigmoid x).deriv

theorem sigmoid_strictMono : StrictMono sigmoid := by
  intro x y hxy
  unfold sigmoid
  have h1 : Real.exp (-y) < Real.exp (-x) := Real.exp_lt_exp.2 (by linarith)
  have h2 : 0 < 1 + Real.exp (-y) := one_add_exp_pos y
  have h3 : 1 + Real.exp (-y) < 1 + Real.exp (-x) := by linarith
  exact inv_strictAnti₀ h2 h3

theorem amaxStep_comp (g : ℝ → ℝ) (hg : StrictMono g) (f : Fin 4 → ℝ)
    (b i : Fin 4) :
    amaxStep (fun j => g (f j)) b i = amaxStep f b i := by
  unfold amaxStep
  by_cases h : f b < f i
  · rw [if_pos (hg.lt_iff_lt.2 h), if_pos h]
  · rw [if_neg (fun hc => h (hg.lt_iff_lt.1 hc)), if_neg h]

theorem argmaxIdx_comp (g : ℝ → ℝ) (hg : StrictMono g) (f : Fin 4 → ℝ) :
    argmaxIdx (fun j => g (f j)) = argmaxIdx f := by
  unfold argmaxIdx
  simp only [amaxStep_comp g hg f]

theorem le_amaxStep_left (f : Fin 4 → ℝ) (b i : Fin 4) :
    f b ≤ f (amaxStep f b i) := by
  unfold amaxStep
  by_cases h : f b < f i
  · rw [if_pos h]; exact le_of_lt h
  · rw [if_neg h]

theorem le_amaxStep_right (f : Fin 4 → ℝ) (b i : Fin 4) :
    f i ≤ f (amaxStep f b i) := by
  unfold amaxStep
  by_cases h : f b < f i
  · rw [if_pos h]
  · rw [if_neg h]; exact not_lt.1 h

theorem argmaxIdx_isMax (f : Fin 4 → ℝ) : ∀ j, f j ≤ f (argmaxIdx f) := by
  have e : argmaxIdx f = amaxStep f (amaxStep f (amaxStep f 0 1) 2) 3 := rfl
  have h0 : f 0 ≤ f (amaxStep f 0 1) := le_amaxStep_left f 0 1
  have h1 : f 1 ≤ f (amaxStep f 0 1) := le_amaxStep_right f 0 1
  have h2l : f (amaxStep f 0 1) ≤ f (amaxStep f (amaxStep f 0 1) 2) :=
    le_amaxStep_left f _ 2
  have h2 : f 2 ≤ f (amaxStep f (amaxStep f 0 1) 2) := le_amaxStep_right f _ 2
  have h3l : f (amaxStep f (amaxStep f 0 1) 2) ≤ f (argmaxIdx f) := by
    rw [e]; exact le_amaxStep_left f _ 3
  have h3 : f 3 ≤ f (argmaxIdx f) := by
    rw [e]; exact le_amaxStep_right f _ 3
  intro j
  rcases fin4_cases j with rfl | rfl | rfl | rfl
  · exact le_trans (le_trans h0 h2l) h3l
  · exact le_trans (le_trans h1 h2l) h3l
  · exact le_trans h2 h3l
  · exact h3

theorem argmaxIdx_first (f : Fin 4 → ℝ) (j : Fin 4) (hj : ∀ k, f k ≤ f j) :
    argmaxIdx f ≤ j := by
  have e : argmaxIdx f = amaxStep f (amaxStep f (amaxStep f 0 1) 2) 3 := rfl
  rw [e]
  by_cases h1 : f 0 < f 1
  · rw [show amaxStep f 0 1 = 1 from if_pos h1]
    by_cases h2 : f 1 < f 2
    · rw [show amaxStep f 1 2 = 2 from if_pos h2]
      by_cases h3 : f 2 < f 3
      · rw [show amaxStep f 2 3 = 3 from if_pos h3]
        rcases fin4_cases j with rfl | rfl | rfl | rfl <;>
          first
            | decide
            | (exfalso; linarith [hj 0, hj 1, hj 2, hj 3])
      · rw [show amaxStep f 2 3 = 2 from if_neg h3]
        rcases fin4_cases j with rfl | rfl | rfl | rfl <;>
          first
            | decide
            | (exfalso; linarith [hj 0, hj 1, hj 2, hj 3])
    · rw [show amaxStep f 1 2 = 1 from if_neg h2]
      by_cases h3 : f 1 < f 3
      · rw [show amaxStep f 1 3 = 3 from if_pos h3]
        rcases fin4_cases j with rfl | rfl | rfl | rfl <;>
          first
            | decide
            | (exfalso; linarith [hj 0, hj 1, hj 2, hj 3])
      · rw [show amaxStep f 1 3 = 1 from if_neg h3]
        rcases fin4_cases j with rfl | rfl | rfl | rfl <;>
          first
            | decide
            | (exfalso; linarith [hj 0, hj 1, hj 2, hj 3])
  · rw [show amaxStep f 0 1 = 0 from if_neg h1]
    by_cases h2 : f 0 < f 2
    · rw [show amaxStep f 0 2 = 2 from if_pos h2]
      by_cases h3 : f 2 < f 3
      · rw [show amaxStep f 2 3 = 3 from if_pos h3]
        rcases fin4_cases j with rfl | rfl | rfl | rfl <;>
          first
            | decide
            | (exfalso; linarith [hj 0, hj 1, hj 2, hj 3])
      · rw [show amaxStep f 2 3 = 2 from if_neg h3]
        rcases fin4_cases j with rfl | rfl | rfl | rfl <;>
          first
            | decide
            | (exfalso; linarith [hj 0, hj 1, hj 2, hj 3])
    · rw [show amaxStep f 0 2 = 0 from if_neg h2]
      by_cases h3 : f 0 < f 3
      · rw [show amaxStep f 0 3 = 3 from if_pos h3]
        rcases fin4_cases j with rfl | rfl | rfl | rfl <;>
          first
            | decide
            | (exfalso; linarith [hj 0, hj 1, hj 2, hj 3])
      · rw [show amaxStep f 0 3 = 0 from if_neg h3]
        rcases fin4_cases j with rfl | rfl | rfl | rfl <;> decide

theorem aminStep_eq (f : Fin 4 → ℝ) (b i : Fin 4) :
    aminStep f b i = amaxStep (fun j => -(f j)) b i := by
  unfold aminStep amaxStep
  by_cases h : f i < f b
  · rw [if_pos h, if_pos (neg_lt_neg_iff.2 h)]
  · rw [if_neg h, if_neg (fun hc => h (neg_lt_neg_iff.1 hc))]

theorem argminIdx_eq_argmax_neg (f : Fin 4 → ℝ) :
    argminIdx f = argmaxIdx (fun j => -(f j)) := by
  unfold argminIdx argmaxIdx
  simp only [aminStep_eq f]

theorem argminIdx_isMin (f : Fin 4 → ℝ) : ∀ j, f (argminIdx f) ≤ f j := by
  intro j
  have h := argmaxIdx_isMax (fun j => -(f j)) j
  rw [argminIdx_eq_argmax_neg]
  simpa using h

theorem preact_eq (W : Fin 3 → Fin 4 → ℝ) (s : Fin 3) (j : Fin 4) :
    preact W s j = W s j := by
  unfold preact oneHot
  rw [Finset.sum_eq_single s]
  · simp
  · intro i _ hi
    simp [hi]
  · intro hs
    exact absurd (Finset.mem_univ s) hs

theorem preact_setEntry_same (W : Fin 3 → Fin 4 → ℝ) (s : Fin 3) (a : Fin 4)
    (w : ℝ) : preact (setEntry W s a w) s a = w := by
  unfold preact setEntry oneHot
  rw [Finset.sum_eq_single s]
  · simp
  · intro i _ hi
    simp [hi]
  · intro hs
    exact absurd (Finset.mem_univ s) hs

theorem preact_setEntry_other (W : Fin 3 → Fin 4 → ℝ) (s i : Fin 3)
    (a j : Fin 4) (w : ℝ) (h : ¬ (i = s ∧ j = a)) :
    preact (setEntry W i j w) s a = preact W s a := by
  unfold preact setEntry oneHot
  apply Finset.sum_congr rfl
  intro k _
  by_cases hk : k = s
  · subst hk
    have hcond : ¬ (k = i ∧ a = j) := fun hc => h ⟨hc.1.symm, hc.2.symm⟩
    rw [if_neg hcond]
  · simp [hk]

theorem hasDerivAt_entryLoss (r w : ℝ) :
    HasDerivAt (fun x => -(Real.log (sigmoid x) * r))
      (-(deriv sigmoid w / sigmoid w * r)) w := by
  have hs := hasDerivAt_sigmoid w
  have hlog : HasDerivAt (fun x => Real.log (sigmoid x))
      (Real.exp (-w) / (1 + Real.exp (-w)) ^ 2 / sigmoid w) w :=
    hs.log (ne_of_gt (sigmoid_pos w))
  have hfull := (hlog.mul_const r).neg
  simpa [deriv_sigmoid] using hfull

theorem updateStep_selected (lr : ℝ) (W : Fin 3 → Fin 4 → ℝ) (s : Fin 3)
    (a : Fin 4) (r : ℝ) :
    updateStep lr W s a r s a
      = W s a + lr * r * deriv sigmoid (W s a) / sigmoid (W s a) := by
  have hfun : (fun w => loss (setEntry W s a w) s a r)
      = fun w => -(Real.log (sigmoid w) * r) := by
    funext w
    unfold loss responsibleWeight outputRow
    rw [preact_setEntry_same]
  unfold updateStep
  rw [hfun, (hasDerivAt_entryLoss r (W s a)).deriv]
  ring

theorem updateStep_frame (lr : ℝ) (W : Fin 3 → Fin 4 → ℝ) (s : Fin 3)
    (a : Fin 4) (r : ℝ) (i : Fin 3) (j : Fin 4) (h : ¬ (i = s ∧ j = a)) :
    updateStep lr W s a r i j = W i j := by
  have hfun : (fun w => loss (setEntry W i j w) s a r)
      = fun _ => loss W s a r := by
    funext w
    unfold loss responsibleWeight outputRow
    rw [preact_setEntry_other W s i a j w h]
  unfold updateStep
  rw [hfun, deriv_const]
  ring

theorem trainLoopLog_fst (rand : ℕ → Rand) :
    (trainLoopLog rand).1 = trainLoop rand := by
  suffices h : ∀ (l : List ℕ) (st : TrainState) (lg : List (Fin 3 → ℝ)),
      (l.foldl
          (fun p i =>
            let s2 := step p.1 (rand i)
            (s2, p.2 ++ episodeReport i s2.T))
          (st, lg)).1
        = l.foldl (fun s3 i => step s3 (rand i)) st by
    exact h (List.range totalEpisodes) initState []
  intro l
  induction l with
  | nil => intro st lg; rfl
  | cons x xs ih =>
    intro st lg
    simp only [List.foldl]
    exact ih _ _

/-- C1: for every state of the environment and every in-range action, `pullArm`
compares the one standard-normal draw against the fixed threshold at
`(state, action)` and returns `+1` exactly when the draw exceeds the
threshold, `-1` otherwise; for every possible draw the reward is `+1` or
`-1` and nothing else. -/
theorem spec_C1 (s : Fin 3) (a : Fin 4) (d : ℝ) :
    pullArm ⟨s⟩ a d = (if d > banditsTable s a then 1 else -1) ∧
    (pullArm ⟨s⟩ a d = 1 ∨ pullArm ⟨s⟩ a d = -1) := by
  refine ⟨rfl, ?_⟩
  have e : pullArm ⟨s⟩ a d = if d > banditsTable s a then 1 else -1 := rfl
  rw [e]
  by_cases h : d > banditsTable s a
  · left
    rw [if_pos h]
  · right
    rw [if_neg h]

/-- C2: one call of the agent's update computes the loss
`-(log (sigmoid (W s a)) * r)` and performs exactly one gradient-descent
step on the selected scalar weight: its new value is the old value plus
`lr * r * sigmoid' (W s a) / sigmoid (W s a)`. -/
theorem spec_C2 (lr : ℝ) (W : Fin 3 → Fin 4 → ℝ) (s : Fin 3) (a : Fin 4)
    (r : ℝ) :
    loss W s a r = -(Real.log (sigmoid (W s a)) * r) ∧
    updateStep lr W s a r s a
      = W s a + lr * r * deriv sigmoid (W s a) / sigmoid (W s a) := by
  constructor
  · unfold loss responsibleWeight outputRow
    rw [preact_eq]
  · exact updateStep_selected lr W s a r

/-- C3: a single update call leaves every entry of the weight matrix other
than the selected cell `(s, a)` exactly unchanged; the matrix keeps its
`(3, 4)` shape throughout, which the embedding enforces by the type
`Fin 3 → Fin 4 → ℝ` of the weights before and after every update. -/
theorem spec_C3 (lr : ℝ) (W : Fin 3 → Fin 4 → ℝ) (s : Fin 3) (a : Fin 4)
    (r : ℝ) (i : Fin 3) (j : Fin 4) (h : ¬ (i = s ∧ j = a)) :
    updateStep lr W s a r i j = W i j :=
  updateStep_frame lr W s a r i j h

/-- Witness for C3 at a concrete off-cell entry: updating cell `(0, 0)` of the
all-ones matrix leaves entry `(1, 1)` equal to `1`. -/
theorem spec_C3_witness :
    (¬ ((1 : Fin 3) = 0 ∧ (1 : Fin 4) = 0)) ∧
    updateStep 1 (fun _ _ => 1) 0 0 1 1 1 = 1 :=
  ⟨by decide, spec_C3 1 (fun _ _ => 1) 0 0 1 1 1 (by decide)⟩

/-- C4: the agent's greedy action is the first-occurrence argmax of the
sigmoid-activated weight row, which (sigmoid being strictly increasing)
equals the lowest index attaining the maximum of the raw weight row: it
attains the row maximum, is at most every other maximizer, and on the
all-ones initial weights it is index `0` for every state. -/
theorem spec_C4 (W : Fin 3 → Fin 4 → ℝ) (s : Fin 3) :
    chosenAction W s = argmaxIdx (fun j => W s j) ∧
    (∀ j, W s j ≤ W s (chosenAction W s)) ∧
    (∀ j, (∀ k, W s k ≤ W s j) → chosenAction W s ≤ j) ∧
    chosenAction (fun _ _ => (1 : ℝ)) s = 0 := by
  have hrow : (fun j => outputRow W s j) = fun j => sigmoid (W s j) := by
    funext j
    unfold outputRow
    rw [preact_eq]
  have hact : chosenAction W s = argmaxIdx (fun j => W s j) := by
    unfold chosenAction
    rw [hrow]
    exact argmaxIdx_comp sigmoid sigmoid_strictMono (fun j => W s j)
  refine ⟨hact, ?_, ?_, ?_⟩
  · intro j
    rw [hact]
    exact argmaxIdx_isMax (fun j => W s j) j
  · intro j hj
    rw [hact]
    exact argmaxIdx_first (fun j => W s j) j hj
  · have hrow1 : (fun j => outputRow (fun _ _ => (1 : ℝ)) s j)
        = fun _ => sigmoid 1 := by
      funext j
      unfold outputRow
      rw [preact_eq]
    unfold chosenAction
    rw [hrow1]
    unfold argmaxIdx amaxStep
    simp [lt_irrefl]

/-- Witness for C4 at the all-ones weights and state `0`: the greedy action is
the argmax of the constant row and is at most the maximizer `0`. -/
theorem spec_C4_witness :
    chosenAction (fun _ _ => (1 : ℝ)) 0 = argmaxIdx (fun _ => (1 : ℝ)) ∧
    chosenAction (fun _ _ => (1 : ℝ)) 0 ≤ 0 :=
  ⟨(spec_C4 (fun _ _ => 1) 0).1,
   (spec_C4 (fun _ _ => 1) 0).2.2.1 0 (fun _ => le_refl 1)⟩

/-- C5 counterexample: `pullArm` does not receive the state from the caller —
it reads the environment's stored current-state field, and the reward
depends on that field: with the same action `3` and the same draw `0`, the
stored state `0` yields reward `+1` while the stored state `2` yields
`-1`. -/
theorem spec_C5_counterexample :
    pullArm ⟨0⟩ 3 0 = 1 ∧ pullArm ⟨2⟩ 3 0 = -1 ∧
    pullArm ⟨0⟩ 3 0 ≠ pullArm ⟨2⟩ 3 0 := by
  have e1 : pullArm ⟨0⟩ 3 0 = if (0 : ℝ) > banditsTable 0 3 then 1 else -1 := rfl
  have e2 : pullArm ⟨2⟩ 3 0 = if (0 : ℝ) > banditsTable 2 3 then 1 else -1 := rfl
  have b1 : banditsTable 0 3 = -5 := rfl
  have b2 : banditsTable 2 3 = 5 := rfl
  have r1 : pullArm ⟨0⟩ 3 0 = 1 := by
    rw [e1, b1, if_pos (by norm_num)]
  have r2 : pullArm ⟨2⟩ 3 0 = -1 := by
    rw [e2, b2, if_neg (by norm_num)]
  refine ⟨r1, r2, ?_⟩
  rw [r1, r2]
  decide

/-- C5 amended: `pullArm` receives only the action and uses the environment's
stored current-state field; when the caller pulls with the environment
returned by `getBandit` and threads the state `getBandit` returned — as the
training loop does — the reward coincides with the spec's explicit-state
`pull(state, action)` for every draw. -/
theorem spec_C5_amended (sd : Fin 3) (a : Fin 4) (d : ℝ) :
    pullArm (getBandit sd).1 a d = pullSpec (getBandit sd).2 a d := rfl

/-- C6: the trainer runs exactly `10000` episodes with constant learning rate
`0.001`; each episode takes the uniformly random action when the
exploration draw is below the constant, never-decaying `ε = 0.1` and the
agent's greedy action otherwise. -/
theorem spec_C6 :
    totalEpisodes = 10000 ∧ lrConst = 0.001 ∧ epsConst = 0.1 ∧
    (∀ (W : Fin 3 → Fin 4 → ℝ) (r : Rand),
      chooseAction W r
        = if r.exploreDraw < 0.1 then r.aDraw else chosenAction W r.sDraw) ∧
    ∀ rand : ℕ → Rand,
      trainLoop rand
        = (List.range 10000).foldl (fun st i => step st (rand i)) initState :=
  ⟨rfl, rfl, rfl, fun _ _ => rfl, fun _ => rfl⟩

/-- C7: the final report declares for each bandit row the argmax of the
learned weight row, and the verdict is right exactly when that index equals
the first-occurrence argmin of the bandit's threshold row — an index whose
threshold is minimal in the row, hence the designed best arm. -/
theorem spec_C7 (W : Fin 3 → Fin 4 → ℝ) (a : Fin 3) :
    ((finalSummary W a).2.2 = true
      ↔ argmaxIdx (W a) = argminIdx (banditsTable a)) ∧
    (finalSummary W a).1 = (argmaxIdx (W a)).val + 1 ∧
    ∀ j, banditsTable a (argminIdx (banditsTable a)) ≤ banditsTable a j := by
  refine ⟨?_, rfl, argminIdx_isMin (banditsTable a)⟩
  show decide (argmaxIdx (W a) = argminIdx (banditsTable a)) = true ↔ _
  exact decide_eq_true_iff

/-- C8: the state of the training loop is unaffected by the diagnostic
reporting, and episode `i` emits exactly one report when `i % 500 = 0` and
none otherwise, the report being the row means of the score table — each
row sum divided by the number of actions, `4`. -/
theorem spec_C8 :
    (∀ rand : ℕ → Rand, (trainLoopLog rand).1 = trainLoop rand) ∧
    ∀ (i : ℕ) (T : Fin 3 → Fin 4 → ℝ),
      episodeReport i T
        = if i % 500 = 0 then [fun b => (∑ j : Fin 4, T b j) / 4] else [] :=
  ⟨trainLoopLog_fst, fun _ _ => rfl⟩

/-- C9: in every episode the sampled state is a valid row index below
`num_bandits = 3`, the chosen action — random or greedy — is a valid column
index below `num_actions = 4`, so the unchecked table lookup inside
`pullArm` stays in range, and the produced reward is `+1` or `-1`. -/
theorem spec_C9 (st : TrainState) (r : Rand) :
    ((r.sDraw : ℕ) < numBandits) ∧
    ((chooseAction st.W r : ℕ) < numActions) ∧
    (pullArm ⟨r.sDraw⟩ (chooseAction st.W r) r.rewardDraw = 1 ∨
      pullArm ⟨r.sDraw⟩ (chooseAction st.W r) r.rewardDraw = -1) := by
  refine ⟨r.sDraw.isLt, (chooseAction st.W r).isLt, ?_⟩
  have e : pullArm ⟨r.sDraw⟩ (chooseAction st.W r) r.rewardDraw
      = if r.rewardDraw > banditsTable r.sDraw (chooseAction st.W r)
        then 1 else -1 := rfl
  rw [e]
  by_cases h : r.rewardDraw > banditsTable r.sDraw (chooseAction st.W r)
  · left
    rw [if_pos h]
  · right
    rw [if_neg h]

/-- C10: the final summary prints 1-based numbers — the action number is the
0-based argmax of the weight row plus one and the bandit number is the row
index plus one — while the verdict compares the 0-based argmax of the
weight row with the 0-based argmin of the threshold row. -/
theorem spec_C10 (W : Fin 3 → Fin 4 → ℝ) (a : Fin 3) :
    (finalSummary W a).1 = (argmaxIdx (W a)).val + 1 ∧
    (finalSummary W a).2.1 = a.val + 1 ∧
    ((finalSummary W a).2.2 = true
      ↔ argmaxIdx (W a) = argminIdx (banditsTable a)) := by
  refine ⟨rfl, rfl, ?_⟩
  show decide (argmaxIdx (W a) = argminIdx (banditsTable a)) = true ↔ _
  exact decide_eq_true_iff

end TFRL
